import Mathlib

/-!
Verification of the TCP calculator server (`tcp_server.cpp`) and client
validator (`tcp_client.cpp`).

The development shallowly embeds the pure parts of both programs:

* the arithmetic evaluator (`precedence`, `apply_op`, `evaluate`) of both
  endpoints, as `Server.evaluate` and `Client.evaluate` over `List Char`,
  machine `long` modelled as unbounded `Int` and C++ division (`a / b`,
  truncation toward zero) as `Int.tdiv`;
* the delimiter codec: the server's `while (in_buf.find(' ') != npos)`
  extraction loop (`processInBuf`) and the client's single
  `if (in_buf.find(' ') != npos)` reply scan (`clientFrames`, `handleReply`);
* the per-readiness-notification drain loops of both endpoints, as functions
  over the list of results the transport returns for consecutive
  `read`/`write`/`send`/`recv` calls (`readLoop`, `serverWriteLoop`,
  `clientSendLoop`, `clientRecvLoop`); a result list that runs out before the
  loop exits leaves the behaviour unspecified, modelled by `Option`.

Thrown C++ exceptions are modelled as `Except.error` values; out-of-contract
accesses (`std::stack::top`/`pop` on an empty stack, which the source can
perform on malformed input) are modelled as the distinguished error
`EvalErr.stackUnderflow`, which the server's `catch (...)` does *not* turn
into an "ERR" reply because it is undefined behaviour, not an exception.
-/

/-- Error outcomes of the evaluator.  The first three model the
`std::runtime_error`s thrown by the source ("Division by zero",
"Unknown operator", "Empty expression"); `stackUnderflow` models a
`top()`/`pop()` on an empty `std::stack`, which is undefined behaviour in the
source, not a catchable failure. -/
inductive EvalErr
  | divisionByZero
  | unknownOperator
  | emptyExpression
  | stackUnderflow
deriving DecidableEq, Repr

deriving instance DecidableEq for Except

/-- `isspace` of the C locale on a byte: space, or one of `\t\n\v\f\r`
(code points 9 to 13). -/
def isSpaceB (c : Char) : Bool := c.toNat = 32 || (9 ≤ c.toNat && c.toNat ≤ 13)

/-- `isdigit` of the C locale on a byte: ASCII `'0'` (48) to `'9'` (57). -/
def isDigitB (c : Char) : Bool := 48 ≤ c.toNat && c.toNat ≤ 57

/-- The numeric value `c - '0'` of a character, as used by the source's
digit-accumulation loop. -/
def digitVal (c : Char) : Int := (c.toNat : Int) - 48

/-- `int precedence(char op)` of both source files: 1 for additive, 2 for
multiplicative operators, 0 otherwise. -/
def precedence (op : Char) : Nat :=
  if op = '+' || op = '-' then 1
  else if op = '*' || op = '/' then 2
  else 0

namespace Server

/-- `long apply_op(long a, long b, char op)` of `tcp_server.cpp`: the switch
over the operator; division by zero and an unknown operator throw. -/
def apply_op (a b : Int) (op : Char) : Except EvalErr Int :=
  if op = '+' then .ok (a + b)
  else if op = '-' then .ok (a - b)
  else if op = '*' then .ok (a * b)
  else if op = '/' then
    if b = 0 then .error .divisionByZero else .ok (a.tdiv b)
  else .error .unknownOperator

end Server

namespace Client

/-- `long apply_op(long a, long b, char op)` of `tcp_client.cpp`: identical to
the server's except that a zero divisor yields `0` instead of throwing
(`return b == 0 ? 0 : a / b;`). -/
def apply_op (a b : Int) (op : Char) : Except EvalErr Int :=
  if op = '+' then .ok (a + b)
  else if op = '-' then .ok (a - b)
  else if op = '*' then .ok (a * b)
  else if op = '/' then .ok (if b = 0 then 0 else a.tdiv b)
  else .error .unknownOperator

end Client

/-- The type of an `apply_op` implementation; `evaluate` is identical in the
two source files except for which `apply_op` it calls, so the evaluator is
embedded once, parameterised by it. -/
def ApplyOp : Type := Int → Int → Char → Except EvalErr Int

/-- The inner `while (i < s.size() && isdigit(s[i]))` digit-accumulation loop:
consume the leading digit run, folding `val = val * 10 + (s[i] - '0')`, and
return the value together with the unconsumed remainder. -/
def readNum : List Char → Int → Int × List Char
  | [], val => (val, [])
  | c :: rest, val =>
    if isDigitB c then readNum rest (val * 10 + digitVal c) else (val, c :: rest)

/-- The `while (!ops.empty() && precedence(ops.top()) >= precedence(op))` loop
of `evaluate`: pop and apply stacked operators of no smaller precedence.  The
value stack is popped twice per application (`b` first, then `a`); doing so
with fewer than two stacked values is `stackUnderflow` (see `EvalErr`). -/
def popWhile (ap : ApplyOp) (c : Char) : List Int → List Char → Except EvalErr (List Int × List Char)
  | values, [] => .ok (values, [])
  | values, op :: ops =>
    if precedence op ≥ precedence c then
      match values with
      | b :: a :: vs =>
        match ap a b op with
        | .error e => .error e
        | .ok r => popWhile ap c (r :: vs) ops
      | _ => .error .stackUnderflow
    else .ok (values, op :: ops)

/-- The final `while (!ops.empty())` loop of `evaluate`: apply every remaining
stacked operator. -/
def drainOps (ap : ApplyOp) : List Int → List Char → Except EvalErr (List Int)
  | values, [] => .ok values
  | values, op :: ops =>
    match values with
    | b :: a :: vs =>
      match ap a b op with
      | .error e => .error e
      | .ok r => drainOps ap (r :: vs) ops
    | _ => .error .stackUnderflow

theorem readNum_len_le (l : List Char) (v : Int) : (readNum l v).2.length ≤ l.length := by
  induction l generalizing v with
  | nil => simp [readNum]
  | cons c rest ih =>
    by_cases h : isDigitB c
    · simp only [readNum, h, if_true]
      exact Nat.le_succ_of_le (ih _)
    · simp [readNum, h]

/-- The main `for (size_t i = 0; i < s.size();)` scan of `evaluate`, carrying
the two stacks.  Whitespace is skipped; a digit starts the inner
digit-accumulation loop (its guaranteed first iteration from `val = 0` is
written out, exactly as the source performs it); any other character is
treated as an operator: stacked operators of no smaller precedence are applied
and the character is pushed. -/
def evalLoop (ap : ApplyOp) : List Char → List Int → List Char → Except EvalErr (List Int × List Char)
  | [], values, ops => .ok (values, ops)
  | c :: rest, values, ops =>
    if isSpaceB c then evalLoop ap rest values ops
    else if isDigitB c then
      let p := readNum rest (0 * 10 + digitVal c)
      evalLoop ap p.2 (p.1 :: values) ops
    else
      match popWhile ap c values ops with
      | .error e => .error e
      | .ok (values2, ops2) => evalLoop ap rest values2 (c :: ops2)
termination_by l _ _ => l.length
decreasing_by
  · simp
  · have := readNum_len_le rest (0 * 10 + digitVal c)
    simp at this ⊢
    omega
  · simp

/-- `long evaluate(const std::string& s)` of either source file, parameterised
by its `apply_op`: run the main scan, drain the remaining operators, and
return the top of the value stack (an empty stack throws "Empty
expression"). -/
def evaluateWith (ap : ApplyOp) (s : List Char) : Except EvalErr Int :=
  match evalLoop ap s [] [] with
  | .error e => .error e
  | .ok (values, ops) =>
    match drainOps ap values ops with
    | .error e => .error e
    | .ok values2 =>
      match values2 with
      | [] => .error .emptyExpression
      | v :: _ => .ok v

/-- `evaluate` of `tcp_server.cpp`. -/
def Server.evaluate : List Char → Except EvalErr Int := evaluateWith Server.apply_op

/-- `evaluate` of `tcp_client.cpp`. -/
def Client.evaluate : List Char → Except EvalErr Int := evaluateWith Client.apply_op

/-- `in_buf.find(' ')` : index of the first space in the buffer, if any. -/
def findSep : List Char → Option Nat
  | [] => none
  | c :: rest => if c = ' ' then some 0 else (findSep rest).map (fun k => k + 1)

theorem findSep_lt_length (l : List Char) (p : Nat) (h : findSep l = some p) :
    p < l.length := by
  induction l generalizing p with
  | nil => simp [findSep] at h
  | cons c rest ih =>
    simp only [findSep] at h
    by_cases hc : c = ' '
    · simp [hc] at h
      simp [← h]
    · simp [hc, Option.map_eq_some'] at h
      obtain ⟨k, hk, rfl⟩ := h
      have := ih k hk
      simp
      omega

/-- The server's frame-extraction loop
`while ((pos = c.in_buf.find(' ')) != npos) { expr = substr(0, pos); erase(0, pos + 1); ... }`:
returns the list of extracted messages, in order, and the final buffer
contents. -/
def processInBuf (buf : List Char) : List (List Char) × List Char :=
  match h : findSep buf with
  | none => ([], buf)
  | some pos =>
    let rest := processInBuf (buf.drop (pos + 1))
    (buf.take pos :: rest.1, rest.2)
termination_by buf.length
decreasing_by
  have := findSep_lt_length buf pos h
  simp
  omega

/-- Deliver byte runs to a server connection's inbound buffer one at a time,
running the frame-extraction loop after each append (as the `EPOLLIN` handler
does after its read drain); returns all extracted messages, in order, and the
final buffer contents. -/
def feedChunks : List (List Char) → List Char → List (List Char) × List Char
  | [], buf => ([], buf)
  | ch :: rest, buf =>
    let p := processInBuf (buf ++ ch)
    let q := feedChunks rest p.2
    (p.1 ++ q.1, q.2)

/-- The client's reply scan `if ((pos = c.in_buf.find(' ')) != npos)`: at most
one message is extracted per readiness notification, and the buffer is not
erased (the connection is closed instead). -/
def clientFrames (buf : List Char) : List (List Char) :=
  match findSep buf with
  | none => []
  | some pos => [buf.take pos]

/-- Decimal digits of `n`, most significant first: the digit sequence
`std::to_string` produces for a non-negative value. -/
def natToDigits (n : Nat) : List Char :=
  if n < 10 then [Nat.digitChar n]
  else natToDigits (n / 10) ++ [Nat.digitChar (n % 10)]
termination_by n
decreasing_by omega

/-- `std::to_string(long)`: optional leading minus sign followed by the
decimal digits of the absolute value. -/
def intToChars (v : Int) : List Char :=
  if v < 0 then '-' :: natToDigits v.natAbs else natToDigits v.natAbs

/-- The server session driver's reply for one extracted expression:
`try { reply = to_string(evaluate(expr)); } catch (...) { reply = "ERR"; }`
followed by `reply.push_back(' ')`.  A `stackUnderflow` is undefined
behaviour, not a thrown exception, so the `catch (...)` does not cover it:
the reply is unspecified (`none`). -/
def serverReply (expr : List Char) : Option (List Char) :=
  match Server.evaluate expr with
  | .ok v => some (intToChars v ++ [' '])
  | .error .divisionByZero => some (String.toList "ERR ")
  | .error .unknownOperator => some (String.toList "ERR ")
  | .error .emptyExpression => some (String.toList "ERR ")
  | .error .stackUnderflow => none

/-- Readiness interests a connection can be registered for: `EPOLLIN | EPOLLET`
(read only) or `EPOLLIN | EPOLLOUT | EPOLLET` (read and write). -/
inductive Interest
  | readOnly
  | readWrite
deriving DecidableEq, Repr

/-- The body of the server's extraction loop applied to each extracted
message in order: append the reply frame to `out_buf` and switch the
connection's registration to `EPOLLIN | EPOLLOUT | EPOLLET`
(`EPOLL_CTL_MOD`).  `none` if some message's evaluation hits undefined
behaviour. -/
def serverHandleMsgs : List (List Char) → List Char → Interest → Option (List Char × Interest)
  | [], out, int_ => some (out, int_)
  | m :: rest, out, _ =>
    match serverReply m with
    | none => none
    | some rep => serverHandleMsgs rest (out ++ rep) .readWrite

/-- `std::stol` on the reply text, base 10: skip leading whitespace, accept an
optional sign, then require at least one digit; the leading digit run gives
the value and trailing bytes are ignored.  `none` models the thrown
`std::invalid_argument` when no digits can be consumed. -/
def stolNat : List Char → Option Int
  | [] => none
  | c :: rest => if isDigitB c then some (readNum (c :: rest) 0).1 else none

/-- See `stolNat`. -/
def stol (s : List Char) : Option Int :=
  match s.dropWhile (fun c => isSpaceB c) with
  | '-' :: rest =>
    match stolNat rest with
    | none => none
    | some v => some (-v)
  | '+' :: rest => stolNat rest
  | l => stolNat l

/-- Per-connection client state (`struct Connection` of `tcp_client.cpp`). -/
structure ClientConn where
  expr : List Char
  fragments : List (List Char)
  frag_idx : Nat
  frag_offset : Nat
  in_buf : List Char
  expected : Int
deriving DecidableEq, Repr

/-- What the client's reply check does in one readiness notification. -/
inductive ReplyAction
  | keepWaiting
  | reportMatch
  | reportMismatch
  | parseFailure
deriving DecidableEq, Repr

/-- The client's reply handling after its recv drain: if the buffer holds a
space, take the bytes before it, parse with `std::stol`, compare with the
recorded expectation and report; the connection is then closed and erased
(the returned `Bool`).  A parse failure is an uncaught exception: it is
reported as `parseFailure` and the close/erase is never reached. -/
def handleReply (c : ClientConn) : ReplyAction × Bool :=
  match findSep c.in_buf with
  | none => (.keepWaiting, false)
  | some pos =>
    match stol (c.in_buf.take pos) with
    | none => (.parseFailure, false)
    | some v =>
      (if v = c.expected then .reportMatch else .reportMismatch, true)

/-- Result of one nonblocking `read`/`recv` call, as the abstract transport
reports it: `recvd bs` is a return value of `bs.length` (so `recvd []` is the
end-of-stream return `0`), `wouldBlock` is `-1` with
`EAGAIN`/`EWOULDBLOCK`, and `fatalError` is `-1` with any other `errno`. -/
inductive ReadResult
  | recvd (bs : List Char)
  | wouldBlock
  | fatalError
deriving DecidableEq, Repr

/-- Outcome of the server's read drain for one notification. -/
inductive DrainOutcome
  | continueWaiting (in_buf : List Char)
  | closedRemoved
deriving DecidableEq, Repr

/-- The server's `while (true) { read(...) }` drain (`tcp_server.cpp`,
`EPOLLIN` branch): positive counts append to `in_buf` and loop;
`EAGAIN`/`EWOULDBLOCK` breaks with the connection kept; a zero count
(end-of-stream) or any other error closes the socket and erases the
connection.  `none` when the supplied result list runs out while the loop is
still running. -/
def readLoop : List Char → List ReadResult → Option DrainOutcome
  | _, [] => none
  | buf, .recvd bs :: rest =>
    if bs.isEmpty then some .closedRemoved else readLoop (buf ++ bs) rest
  | buf, .wouldBlock :: _ => some (.continueWaiting buf)
  | _, .fatalError :: _ => some .closedRemoved

/-- The client's `while (true) { recv(...) }` drain (`tcp_client.cpp`,
`EPOLLIN` branch): positive counts append and loop; end-of-stream,
`EAGAIN`/`EWOULDBLOCK` and every other error alike merely `break`, leaving
the connection in the table; the loop never closes.  Returns the buffer at
loop exit. -/
def clientRecvLoop : List Char → List ReadResult → Option (List Char)
  | _, [] => none
  | buf, .recvd bs :: rest =>
    if bs.isEmpty then some buf else clientRecvLoop (buf ++ bs) rest
  | buf, .wouldBlock :: _ => some buf
  | buf, .fatalError :: _ => some buf

/-- The client's whole `EPOLLIN` handler: recv drain, then the single reply
scan.  Returns the action taken and whether the connection was closed and
erased in this step. -/
def clientReadStep (c : ClientConn) (results : List ReadResult) : Option (ReplyAction × Bool) :=
  match clientRecvLoop c.in_buf results with
  | none => none
  | some buf2 =>
    some (handleReply ⟨c.expr, c.fragments, c.frag_idx, c.frag_offset, buf2, c.expected⟩)

/-- Result of one nonblocking `write` call on the server. -/
inductive WriteResult
  | wrote (k : Nat)
  | wouldBlock
  | fatalError
deriving DecidableEq, Repr

/-- Exit state of a send/write drain loop. -/
inductive WLoopOut
  | alive (out : List Char)
  | dead
deriving DecidableEq, Repr

/-- The server's `while (!c.out_buf.empty()) { write(...) }` drain: a positive
return erases that many bytes from the front of `out_buf`;
`EAGAIN`/`EWOULDBLOCK` breaks; a zero return or any other error closes the
socket and erases the connection (`dead`). -/
def serverWriteLoop : List Char → List WriteResult → Option WLoopOut
  | out, [] => if out.isEmpty then some (.alive out) else none
  | out, r :: rest =>
    if out.isEmpty then some (.alive out)
    else
      match r with
      | .wrote k => if 0 < k then serverWriteLoop (out.drop k) rest else some .dead
      | .wouldBlock => some (.alive out)
      | .fatalError => some .dead

/-- Server `EPOLLOUT` outcome: connection alive with a buffer and an interest
registration, or closed and erased. -/
inductive ServerWOutcome
  | alive (out : List Char) (int_ : Interest)
  | closedRemoved
deriving DecidableEq, Repr

/-- The server's whole `EPOLLOUT` handler: write drain, then
`if (c.out_buf.empty())` re-register for `EPOLLIN | EPOLLET` only. -/
def serverWritableStep (out : List Char) (int_ : Interest) (results : List WriteResult) :
    Option ServerWOutcome :=
  match serverWriteLoop out results with
  | none => none
  | some .dead => some .closedRemoved
  | some (.alive out2) =>
    if out2.isEmpty then some (.alive out2 .readOnly) else some (.alive out2 int_)

/-- Result of one nonblocking `send` call on the client. -/
inductive SendResult
  | sent (k : Nat)
  | wouldBlock
  | fatalError
deriving DecidableEq, Repr

/-- Exit state of the client's fragment send loop: the cursor
(fragment index, byte offset) with the connection alive, or closed. -/
inductive SendLoopOut
  | alive (idx off : Nat)
  | dead
deriving DecidableEq, Repr

/-- The client's `while (c.frag_idx < c.fragments.size()) { send(...) }` loop:
a positive return advances `frag_offset`, rolling over to the next fragment
when the current one is fully consumed; `EAGAIN`/`EWOULDBLOCK` breaks; a zero
return or any other error closes the socket and erases the connection. -/
def clientSendLoop (frags : List (List Char)) : Nat → Nat → List SendResult → Option SendLoopOut
  | idx, off, [] => if idx < frags.length then none else some (.alive idx off)
  | idx, off, r :: rest =>
    if idx < frags.length then
      match r with
      | .sent k =>
        if 0 < k then
          if off + k = (frags.getD idx []).length then clientSendLoop frags (idx + 1) 0 rest
          else clientSendLoop frags idx (off + k) rest
        else some .dead
      | .wouldBlock => some (.alive idx off)
      | .fatalError => some .dead
    else some (.alive idx off)

/-- The outbound-side fields of the client's `struct Connection`. -/
structure ClientSendState where
  fragments : List (List Char)
  frag_idx : Nat
  frag_offset : Nat
deriving DecidableEq, Repr

/-- Client `EPOLLOUT` outcome. -/
inductive ClientWOutcome
  | alive (st : ClientSendState) (int_ : Interest)
  | closedRemoved
deriving DecidableEq, Repr

/-- The client's whole `EPOLLOUT` handler: guarded by
`(evs & EPOLLOUT) && c.frag_idx < c.fragments.size()`, run the send loop,
then `if (c.frag_idx == c.fragments.size())` re-register for
`EPOLLIN | EPOLLET` only.  The fragment list itself is never modified. -/
def clientWritableStep (st : ClientSendState) (int_ : Interest) (results : List SendResult) :
    Option ClientWOutcome :=
  if st.frag_idx < st.fragments.length then
    match clientSendLoop st.fragments st.frag_idx st.frag_offset results with
    | none => none
    | some .dead => some .closedRemoved
    | some (.alive i o) =>
      if i = st.fragments.length then some (.alive ⟨st.fragments, i, o⟩ .readOnly)
      else some (.alive ⟨st.fragments, i, o⟩ int_)
  else some (.alive st int_)

/-- The transport contract for a sequence of `send` results against a cursor:
each successful `send` transmits at most the bytes that were passed to it
(`left = frag.size() - frag_offset`), the cursor then advancing as the loop
does.  Results after a `wouldBlock` or error are unconstrained, as the loop
stops reading them there. -/
def ValidSends (frags : List (List Char)) : Nat → Nat → List SendResult → Prop
  | _, _, [] => True
  | idx, off, .sent k :: rest =>
    k ≤ (frags.getD idx []).length - off ∧
      (if off + k = (frags.getD idx []).length then ValidSends frags (idx + 1) 0 rest
       else ValidSends frags idx (off + k) rest)
  | _, _, _ :: _ => True

/-- The outbound cursor does not point past the end of the queued data: the
fragment index is at most the fragment count, the byte offset is at most the
current fragment's size, and (because `getD` of an out-of-range index is `[]`)
a cursor at the fragment count has offset 0. -/
def CursorOk (frags : List (List Char)) (idx off : Nat) : Prop :=
  idx ≤ frags.length ∧ off ≤ (frags.getD idx []).length

/-- The four operators of the wire grammar `digits (op digits)*`. -/
inductive Op
  | add
  | sub
  | mul
  | div
deriving DecidableEq, Repr

/-- The ASCII character of an operator. -/
def Op.toChar : Op → Char
  | .add => '+'
  | .sub => '-'
  | .mul => '*'
  | .div => '/'

/-- A well-formed, parenthesis-free expression: a first non-negative decimal
integer followed by operator/integer pairs. -/
structure ArithExpr where
  first : Nat
  rest : List (Op × Nat)
deriving DecidableEq, Repr

/-- The text of the operator/integer pairs of an expression. -/
def renderOps (rest : List (Op × Nat)) : List Char :=
  (rest.map (fun p => p.1.toChar :: natToDigits p.2)).flatten

/-- The text of a well-formed expression. -/
def renderExpr (e : ArithExpr) : List Char :=
  natToDigits e.first ++ renderOps e.rest

/-- Modelled from the spec's words (§4.1): the "running-term accumulation"
reference semantics — fold multiplicative operators into a running current
term, fold the term into the running total on every additive operator, and
fold the last term in at the end.  `total` and `aop` start as `0` and `'+'`.
Left-to-right, `*` and `/` binding tighter than `+` and `-`; all arithmetic
through the given `apply_op`. -/
def specStep (ap : ApplyOp) : Int → Char → Int → List (Op × Nat) → Except EvalErr Int
  | total, aop, term, [] => ap total term aop
  | total, aop, term, (op, n) :: rest =>
    if precedence op.toChar = 2 then
      match ap term (n : Int) op.toChar with
      | .error e => .error e
      | .ok term2 => specStep ap total aop term2 rest
    else
      match ap total term aop with
      | .error e => .error e
      | .ok total2 => specStep ap total2 op.toChar (n : Int) rest

/-- Modelled from the spec's words (§4.1, §8): the value of a well-formed
expression under the server's operator semantics — computed left-to-right,
`*`/`/` binding tighter than `+`/`-`, division truncating toward zero and
failing on a zero divisor. -/
def specEval (e : ArithExpr) : Except EvalErr Int :=
  specStep Server.apply_op 0 '+' (e.first : Int) e.rest

theorem findSep_none_iff (l : List Char) : findSep l = none ↔ ∀ c ∈ l, c ≠ ' ' := by
  induction l with
  | nil => simp [findSep]
  | cons c rest ih =>
    by_cases hc : c = ' '
    · simp [findSep, hc]
    · simp [findSep, hc, ih]

theorem findSep_append_sep (p r : List Char) (hp : ∀ c ∈ p, c ≠ ' ') :
    findSep (p ++ ' ' :: r) = some p.length := by
  induction p with
  | nil => simp [findSep]
  | cons c p2 ih =>
    have hc : c ≠ ' ' := hp c (by simp)
    have := ih (fun x hx => hp x (by simp [hx]))
    simp [findSep, hc, this]

theorem processInBuf_nosep (buf : List Char) (h : ∀ c ∈ buf, c ≠ ' ') :
    processInBuf buf = ([], buf) := by
  rw [processInBuf.eq_def]
  split
  · rfl
  · rename_i pos hpos
    rw [(findSep_none_iff buf).mpr h] at hpos
    exact absurd hpos (by simp)

theorem processInBuf_frame (p r : List Char) (hp : ∀ c ∈ p, c ≠ ' ') :
    processInBuf (p ++ ' ' :: r) = (p :: (processInBuf r).1, (processInBuf r).2) := by
  have hf := findSep_append_sep p r hp
  rw [processInBuf.eq_def]
  split
  · rename_i hnone
    rw [hf] at hnone
    exact absurd hnone (by simp)
  · rename_i pos hpos
    rw [hf] at hpos
    injection hpos with hpos
    subst hpos
    have htake : (p ++ ' ' :: r).take p.length = p := List.take_left p (' ' :: r)
    have hdrop : (p ++ ' ' :: r).drop (p.length + 1) = r := by
      have : p ++ ' ' :: r = (p ++ [' ']) ++ r := by simp
      rw [this]
      have hl : (p ++ [' ']).length = p.length + 1 := by simp
      rw [← hl]
      exact List.drop_left _ _
    simp [htake, hdrop]

theorem processInBuf_frames (payloads : List (List Char)) (tailbuf : List Char)
    (hp : ∀ p ∈ payloads, ∀ c ∈ p, c ≠ ' ') (ht : ∀ c ∈ tailbuf, c ≠ ' ') :
    processInBuf ((payloads.map (fun p => p ++ [' '])).flatten ++ tailbuf) =
      (payloads, tailbuf) := by
  induction payloads with
  | nil => simpa using processInBuf_nosep tailbuf ht
  | cons p ps ih =>
    have hshape :
        ((p :: ps).map (fun q => q ++ [' '])).flatten ++ tailbuf =
          p ++ ' ' :: ((ps.map (fun q => q ++ [' '])).flatten ++ tailbuf) := by
      simp
    rw [hshape, processInBuf_frame p _ (hp p (by simp)),
      ih (fun q hq => hp q (by simp [hq]))]

theorem append_eq_snoc_cases {s t p : List Char} {x : Char}
    (h : s ++ t = p ++ [x]) (hxs : x ∈ s) (hxp : x ∉ p) : s = p ++ [x] ∧ t = [] := by
  have hlen : s.length + t.length = p.length + 1 := by
    have := congrArg List.length h
    simpa using this
  by_cases hle : s.length ≤ p.length
  · exfalso
    have hs : s = (p ++ [x]).take s.length := by
      rw [← h, List.take_left]
    rw [List.take_append_of_le_length hle] at hs
    exact hxp (List.take_subset _ _ (hs ▸ hxs))
  · have hsl : s.length = p.length + 1 := by omega
    have ht0 : t = [] := List.eq_nil_of_length_eq_zero (by omega)
    subst ht0
    simp only [List.append_nil] at h
    exact ⟨h, rfl⟩

theorem feedChunks_reassembly (payload : List Char) (hp : ∀ c ∈ payload, c ≠ ' ') :
    ∀ (chunks : List (List Char)) (buf : List Char),
      (∀ ch ∈ chunks, ch ≠ []) → (∀ c ∈ buf, c ≠ ' ') →
      buf ++ chunks.flatten = payload ++ [' '] →
      feedChunks chunks buf = ([payload], []) := by
  intro chunks
  induction chunks with
  | nil =>
    intro buf _ hbuf heq
    simp only [List.flatten_nil, List.append_nil] at heq
    exact absurd rfl (hbuf ' ' (by simp [heq]))
  | cons ch rest ih =>
    intro buf hne hbuf heq
    have heq2 : (buf ++ ch) ++ rest.flatten = payload ++ [' '] := by
      simpa [List.append_assoc] using heq
    by_cases hsp : ∀ c ∈ buf ++ ch, c ≠ ' '
    · have hproc := processInBuf_nosep _ hsp
      have hrec := ih (buf ++ ch) (fun x hx => hne x (List.mem_cons_of_mem _ hx)) hsp heq2
      simp [feedChunks, hproc, hrec]
    · have hx : ' ' ∈ buf ++ ch := by
        by_contra hnx
        exact hsp (fun c hc hceq => hnx (hceq ▸ hc))
      have hxp : ' ' ∉ payload := fun hm => hp ' ' hm rfl
      obtain ⟨hs1, hs2⟩ := append_eq_snoc_cases heq2 hx hxp
      have hrest : rest = [] := by
        cases rest with
        | nil => rfl
        | cons r rs =>
          have hall := List.flatten_eq_nil_iff.mp hs2
          exact absurd (hall r (by simp)) (hne r (by simp))
      subst hrest
      have hproc : processInBuf (buf ++ ch) = ([payload], []) := by
        rw [hs1]
        have h1 : payload ++ [' '] = payload ++ ' ' :: ([] : List Char) := by simp
        rw [h1, processInBuf_frame payload [] hp, processInBuf_nosep [] (by simp)]
      simp [feedChunks, hproc]

theorem clientFrames_frame (p r : List Char) (hp : ∀ c ∈ p, c ≠ ' ') :
    clientFrames (p ++ ' ' :: r) = [p] := by
  unfold clientFrames
  rw [findSep_append_sep p r hp]
  simp only []
  rw [List.take_left]

/-- Claim C1: for every request frame (a payload without the separator byte,
followed by one `' '`) and every partition of the frame into non-empty byte
runs, appending the runs one at a time to a connection's inbound buffer and
running the separator scan after each append extracts exactly the original
message exactly once — no byte loss, no duplication — and leaves the buffer
empty, regardless of partition granularity. -/
theorem c1_frame_reassembly (payload : List Char) (chunks : List (List Char))
    (hp : ∀ c ∈ payload, c ≠ ' ') (hne : ∀ ch ∈ chunks, ch ≠ [])
    (hpart : chunks.flatten = payload ++ [' ']) :
    feedChunks chunks [] = ([payload], []) :=
  feedChunks_reassembly payload hp chunks [] hne (by simp) (by simpa using hpart)

theorem c1_frame_reassembly_witness :
    (∀ c ∈ String.toList "4+6*2", c ≠ ' ') ∧
    feedChunks [String.toList "4+", String.toList "6", String.toList "*2 "] [] =
      ([String.toList "4+6*2"], []) :=
  ⟨by decide, c1_frame_reassembly _ _ (by decide) (by decide) (by decide)⟩

/-- Claim C2 as stated is false on the client: its reply handling scans the
buffer with a single `if`, so a buffer holding the two complete frames
`"1 "` and `"2 "` yields only the first message `"1"` (after which the
connection is closed with the second frame still unconsumed), not both
messages. -/
theorem c2_client_single_scan_counterexample :
    clientFrames (String.toList "1 2 ") = [String.toList "1"] ∧
    clientFrames (String.toList "1 2 ") ≠ [String.toList "1", String.toList "2"] := by
  decide

/-- Claim C2, amended: on the server's receive path the extraction loop
yields, from a buffer of back-to-back complete frames followed by any
separator-free remainder, all contained messages in order within one scan
pass, leaving exactly the remainder in the buffer; on the client's receive
path the single scan extracts only the first contained payload. -/
theorem c2_pipelining_amended :
    (∀ (payloads : List (List Char)) (tailbuf : List Char),
      (∀ p ∈ payloads, ∀ c ∈ p, c ≠ ' ') → (∀ c ∈ tailbuf, c ≠ ' ') →
      processInBuf ((payloads.map (fun p => p ++ [' '])).flatten ++ tailbuf) =
        (payloads, tailbuf)) ∧
    (∀ (p r : List Char), (∀ c ∈ p, c ≠ ' ') → clientFrames (p ++ ' ' :: r) = [p]) :=
  ⟨fun payloads tailbuf hp ht => processInBuf_frames payloads tailbuf hp ht,
   fun p r hp => clientFrames_frame p r hp⟩

theorem c2_pipelining_amended_witness :
    processInBuf (String.toList "1 2 ") = ([String.toList "1", String.toList "2"], []) ∧
    clientFrames (String.toList "1 2 ") = [String.toList "1"] := by
  constructor
  · have h := c2_pipelining_amended.1 [String.toList "1", String.toList "2"] []
      (by decide) (by simp)
    have hX : String.toList "1 2 " =
        (([String.toList "1", String.toList "2"]).map (fun p => p ++ [' '])).flatten ++ [] := by
      decide
    rw [hX]
    exact h
  · have h := c2_pipelining_amended.2 (String.toList "1") (String.toList "2 ") (by decide)
    have hX : String.toList "1 2 " = String.toList "1" ++ ' ' :: String.toList "2 " := by
      decide
    rw [hX]
    exact h

theorem digitChar_isDigit (d : Nat) (h : d < 10) : isDigitB (Nat.digitChar d) = true := by
  interval_cases d <;> decide

theorem digitVal_digitChar (d : Nat) (h : d < 10) : digitVal (Nat.digitChar d) = (d : Int) := by
  interval_cases d <;> decide

theorem digit_not_space (c : Char) (h : isDigitB c = true) : isSpaceB c = false := by
  simp [isDigitB] at h
  simp [isSpaceB]
  omega

theorem natToDigits_digits (n : Nat) : ∀ c ∈ natToDigits n, isDigitB c = true := by
  induction n using natToDigits.induct with
  | case1 n h =>
    rw [natToDigits.eq_def, if_pos h]
    simpa using digitChar_isDigit n h
  | case2 n h ih =>
    rw [natToDigits.eq_def, if_neg h]
    intro c hc
    rcases List.mem_append.mp hc with hc1 | hc2
    · exact ih c hc1
    · simp at hc2
      subst hc2
      exact digitChar_isDigit _ (Nat.mod_lt _ (by omega))

theorem natToDigits_ne_nil (n : Nat) : natToDigits n ≠ [] := by
  rw [natToDigits.eq_def]
  by_cases h : n < 10 <;> simp [h]

/-- The fold the digit-accumulation loop performs over a digit list. -/
def digitStep (a : Int) (c : Char) : Int := a * 10 + digitVal c

theorem digitsVal (n : Nat) : ∀ acc : Int,
    List.foldl digitStep acc (natToDigits n) = acc * 10 ^ (natToDigits n).length + n := by
  induction n using natToDigits.induct with
  | case1 n h =>
    intro acc
    rw [natToDigits.eq_def, if_pos h]
    simp [digitStep, digitVal_digitChar n h]
  | case2 n h ih =>
    intro acc
    rw [natToDigits.eq_def, if_neg h]
    rw [List.foldl_append, ih acc]
    simp only [List.foldl_cons, List.foldl_nil, digitStep,
      digitVal_digitChar _ (Nat.mod_lt _ (by omega : 0 < 10)), List.length_append,
      List.length_cons, List.length_nil]
    have hn : (n : Int) = 10 * ((n / 10 : Nat) : Int) + ((n % 10 : Nat) : Int) := by
      exact_mod_cast (Nat.div_add_mod n 10).symm
    rw [hn, pow_succ]
    ring

/-- The first unconsumed character, if any, is not a digit (so the
digit-accumulation loop stops exactly there). -/
def headNotDigit : List Char → Prop
  | [] => True
  | c :: _ => isDigitB c = false

theorem readNum_digit_run (ds : List Char) (hds : ∀ c ∈ ds, isDigitB c = true)
    (tail : List Char) (htail : headNotDigit tail) :
    ∀ acc : Int, readNum (ds ++ tail) acc = (List.foldl digitStep acc ds, tail) := by
  induction ds with
  | nil =>
    intro acc
    cases tail with
    | nil => simp [readNum]
    | cons c t =>
      simp only [headNotDigit] at htail
      simp [readNum, htail]
  | cons d ds2 ih =>
    intro acc
    have hd : isDigitB d = true := hds d (by simp)
    simp only [List.cons_append, readNum, hd, if_true, List.foldl_cons]
    exact ih (fun c hc => hds c (by simp [hc])) _

theorem readNum_natToDigits (n : Nat) (tail : List Char) (htail : headNotDigit tail)
    (acc : Int) :
    readNum (natToDigits n ++ tail) acc = (acc * 10 ^ (natToDigits n).length + n, tail) := by
  rw [readNum_digit_run (natToDigits n) (natToDigits_digits n) tail htail acc,
    digitsVal n acc]

theorem opChar_not_space (op : Op) : isSpaceB op.toChar = false := by
  cases op <;> decide

theorem opChar_not_digit (op : Op) : isDigitB op.toChar = false := by
  cases op <;> decide

theorem opChar_prec (op : Op) : precedence op.toChar = 1 ∨ precedence op.toChar = 2 := by
  cases op <;> simp [Op.toChar, precedence]

theorem renderOps_headNotDigit (rest : List (Op × Nat)) : headNotDigit (renderOps rest) := by
  cases rest with
  | nil => simp [renderOps, headNotDigit]
  | cons hd tl =>
    obtain ⟨op, n⟩ := hd
    simp [renderOps, headNotDigit, opChar_not_digit]

/-- The operator/number steps of the main scan, one token at a time: apply
stacked operators of no smaller precedence, push the operator, push the
number. -/
def tokRun (ap : ApplyOp) : List (Op × Nat) → List Int → List Char → Except EvalErr (List Int × List Char)
  | [], values, ops => .ok (values, ops)
  | (op, n) :: rest, values, ops =>
    match popWhile ap op.toChar values ops with
    | .error e => .error e
    | .ok (values2, ops2) => tokRun ap rest ((n : Int) :: values2) (op.toChar :: ops2)

/-- What `evaluate` does after its main scan: drain the remaining operators
and take the top of the value stack. -/
def finishState (ap : ApplyOp) (values : List Int) (ops : List Char) : Except EvalErr Int :=
  match drainOps ap values ops with
  | .error e => .error e
  | .ok [] => .error .emptyExpression
  | .ok (v :: _) => .ok v

/-- Token-level run followed by the finishing drain. -/
def tokFinish (ap : ApplyOp) (toks : List (Op × Nat)) (values : List Int) (ops : List Char) :
    Except EvalErr Int :=
  match tokRun ap toks values ops with
  | .error e => .error e
  | .ok (values2, ops2) => finishState ap values2 ops2

theorem tokFinish_nil (ap : ApplyOp) (vs : List Int) (os : List Char) :
    tokFinish ap [] vs os = finishState ap vs os := rfl

theorem tokFinish_cons (ap : ApplyOp) (op : Op) (n : Nat) (rest : List (Op × Nat))
    (vs : List Int) (os : List Char) :
    tokFinish ap ((op, n) :: rest) vs os =
      (match popWhile ap op.toChar vs os with
       | .error e => .error e
       | .ok (v2, o2) => tokFinish ap rest ((n : Int) :: v2) (op.toChar :: o2)) := by
  cases h : popWhile ap op.toChar vs os with
  | error e => simp [tokFinish, tokRun, h]
  | ok vo =>
    obtain ⟨v2, o2⟩ := vo
    simp [tokFinish, tokRun, h]

theorem popWhile_one (ap : ApplyOp) (c : Char) (cur : Int) :
    popWhile ap c [cur] [] = .ok ([cur], []) := rfl

theorem popWhile_two (ap : ApplyOp) (c mc : Char) (cur term : Int)
    (hm : precedence mc = 2) (hc : precedence c ≤ 2) :
    popWhile ap c [cur, term] [mc] =
      (match ap term cur mc with
       | .error e => .error e
       | .ok r => .ok ([r], [])) := by
  unfold popWhile
  rw [if_pos (by omega)]
  cases hr : ap term cur mc <;> simp [hr, popWhile]

theorem popWhile_addtop_low (ap : ApplyOp) (c ac : Char) (cur total : Int)
    (ha : precedence ac = 1) (hc : precedence c = 2) :
    popWhile ap c [cur, total] [ac] = .ok ([cur, total], [ac]) := by
  unfold popWhile
  rw [if_neg (by omega)]

theorem popWhile_addtop_app (ap : ApplyOp) (c ac : Char) (cur total : Int)
    (ha : precedence ac = 1) (hc : precedence c = 1) :
    popWhile ap c [cur, total] [ac] =
      (match ap total cur ac with
       | .error e => .error e
       | .ok r => .ok ([r], [])) := by
  unfold popWhile
  rw [if_pos (by omega)]
  cases hr : ap total cur ac <;> simp [hr, popWhile]

theorem popWhile_deep_mul (ap : ApplyOp) (c ac mc : Char) (cur term total : Int)
    (ha : precedence ac = 1) (hm : precedence mc = 2) (hc : precedence c = 2) :
    popWhile ap c [cur, term, total] [mc, ac] =
      (match ap term cur mc with
       | .error e => .error e
       | .ok r => .ok ([r, total], [ac])) := by
  unfold popWhile
  rw [if_pos (by omega)]
  cases hr : ap term cur mc with
  | error e => simp [hr]
  | ok r =>
    simp only [hr]
    unfold popWhile
    rw [if_neg (by omega)]

theorem popWhile_deep_add (ap : ApplyOp) (c ac mc : Char) (cur term total : Int)
    (ha : precedence ac = 1) (hm : precedence mc = 2) (hc : precedence c = 1) :
    popWhile ap c [cur, term, total] [mc, ac] =
      (match ap term cur mc with
       | .error e => .error e
       | .ok r =>
         match ap total r ac with
         | .error e => .error e
         | .ok s => .ok ([s], [])) := by
  unfold popWhile
  rw [if_pos (by omega)]
  cases hr : ap term cur mc with
  | error e => simp [hr]
  | ok r =>
    simp only [hr]
    unfold popWhile
    rw [if_pos (by omega)]
    cases hs : ap total r ac <;> simp [hs, popWhile]

theorem state_sim (ap : ApplyOp) (hplus : ∀ x : Int, ap 0 x '+' = .ok x)
    (toks : List (Op × Nat)) :
    (∀ cur : Int, tokFinish ap toks [cur] [] = specStep ap 0 '+' cur toks) ∧
    (∀ (cur term : Int) (mc : Char), precedence mc = 2 →
      tokFinish ap toks [cur, term] [mc] =
        (match ap term cur mc with
         | .error e => .error e
         | .ok t => specStep ap 0 '+' t toks)) ∧
    (∀ (cur total : Int) (ac : Char), precedence ac = 1 →
      tokFinish ap toks [cur, total] [ac] = specStep ap total ac cur toks) ∧
    (∀ (cur term total : Int) (ac mc : Char), precedence ac = 1 → precedence mc = 2 →
      tokFinish ap toks [cur, term, total] [mc, ac] =
        (match ap term cur mc with
         | .error e => .error e
         | .ok t => specStep ap total ac t toks)) := by
  induction toks with
  | nil =>
    refine ⟨?_, ?_, ?_, ?_⟩
    · intro cur
      simp [tokFinish_nil, finishState, drainOps, specStep, hplus]
    · intro cur term mc _
      rw [tokFinish_nil]
      cases hr : ap term cur mc with
      | error e => simp [finishState, drainOps, hr, specStep]
      | ok t => simp [finishState, drainOps, hr, specStep, hplus]
    · intro cur total ac _
      rw [tokFinish_nil]
      cases hr : ap total cur ac with
      | error e => simp [finishState, drainOps, hr, specStep]
      | ok t => simp [finishState, drainOps, hr, specStep]
    · intro cur term total ac mc _ _
      rw [tokFinish_nil]
      cases hr : ap term cur mc with
      | error e => simp [finishState, drainOps, hr, specStep]
      | ok t =>
        cases hs : ap total t ac with
        | error e => simp [finishState, drainOps, hr, hs, specStep]
        | ok u => simp [finishState, drainOps, hr, hs, specStep]
  | cons hd rest ih =>
    obtain ⟨op, n⟩ := hd
    obtain ⟨IA, IB, IC, ID⟩ := ih
    have hop := opChar_prec op
    refine ⟨?_, ?_, ?_, ?_⟩
    · intro cur
      rw [tokFinish_cons, popWhile_one]
      show tokFinish ap rest [(n : Int), cur] [op.toChar] = _
      rcases hop with h1 | h2
      · rw [IC (n : Int) cur op.toChar h1]
        simp only [specStep]
        rw [if_neg (by omega), hplus cur]
      · rw [IB (n : Int) cur op.toChar h2]
        simp only [specStep]
        rw [if_pos (by omega)]
    · intro cur term mc hm
      have hle : precedence op.toChar ≤ 2 := by rcases hop with h1 | h2 <;> omega
      rw [tokFinish_cons, popWhile_two ap op.toChar mc cur term hm hle]
      cases hr : ap term cur mc with
      | error e => simp only [hr]
      | ok r =>
        simp only [hr]
        rcases hop with h1 | h2
        · rw [IC (n : Int) r op.toChar h1]
          simp only [specStep]
          rw [if_neg (by omega), hplus r]
        · rw [IB (n : Int) r op.toChar h2]
          simp only [specStep]
          rw [if_pos (by omega)]
    · intro cur total ac ha
      rcases hop with h1 | h2
      · rw [tokFinish_cons, popWhile_addtop_app ap op.toChar ac cur total ha h1]
        cases hr : ap total cur ac with
        | error e =>
          simp only [hr, specStep]
          rw [if_neg (by omega)]
        | ok r =>
          simp only [hr]
          rw [IC (n : Int) r op.toChar h1]
          simp only [specStep]
          rw [if_neg (by omega), hr]
      · rw [tokFinish_cons, popWhile_addtop_low ap op.toChar ac cur total ha h2]
        show tokFinish ap rest [(n : Int), cur, total] [op.toChar, ac] = _
        rw [ID (n : Int) cur total ac op.toChar ha h2]
        simp only [specStep]
        rw [if_pos (by omega)]
    · intro cur term total ac mc ha hm
      rcases hop with h1 | h2
      · rw [tokFinish_cons, popWhile_deep_add ap op.toChar ac mc cur term total ha hm h1]
        cases hr : ap term cur mc with
        | error e => simp only [hr]
        | ok r =>
          simp only [hr]
          cases hs : ap total r ac with
          | error e =>
            simp only [hs, specStep]
            rw [if_neg (by omega)]
          | ok s =>
            simp only [hs]
            rw [IC (n : Int) s op.toChar h1]
            simp only [specStep]
            rw [if_neg (by omega), hs]
      · rw [tokFinish_cons, popWhile_deep_mul ap op.toChar ac mc cur term total ha hm h2]
        cases hr : ap term cur mc with
        | error e => simp only [hr]
        | ok r =>
          simp only [hr]
          rw [ID (n : Int) r total ac op.toChar ha h2]
          simp only [specStep]
          rw [if_pos (by omega)]

theorem evalLoop_number (ap : ApplyOp) (n : Nat) (tail : List Char)
    (htail : headNotDigit tail) (values : List Int) (ops : List Char) :
    evalLoop ap (natToDigits n ++ tail) values ops =
      evalLoop ap tail ((n : Int) :: values) ops := by
  obtain ⟨d, ds, hnd⟩ : ∃ d ds, natToDigits n = d :: ds := by
    cases h : natToDigits n with
    | nil => exact absurd h (natToDigits_ne_nil n)
    | cons d ds => exact ⟨d, ds, rfl⟩
  have hdg : isDigitB d = true := natToDigits_digits n d (by simp [hnd])
  have hsp : isSpaceB d = false := digit_not_space d hdg
  have hrd : readNum (ds ++ tail) (0 * 10 + digitVal d) = ((n : Int), tail) := by
    have h0 := readNum_natToDigits n tail htail 0
    rw [hnd] at h0
    simp only [List.cons_append, readNum, hdg, if_true] at h0
    simpa using h0
  rw [hnd]
  simp only [List.cons_append, evalLoop, hsp, hdg, Bool.false_eq_true, if_false, if_true, hrd]

theorem evalLoop_renderOps (ap : ApplyOp) (rest : List (Op × Nat)) :
    ∀ (values : List Int) (ops : List Char),
      evalLoop ap (renderOps rest) values ops = tokRun ap rest values ops := by
  induction rest with
  | nil =>
    intro values ops
    simp [renderOps, evalLoop, tokRun]
  | cons hd tl ih =>
    obtain ⟨op, n⟩ := hd
    intro values ops
    have hr : renderOps ((op, n) :: tl) = op.toChar :: (natToDigits n ++ renderOps tl) := by
      simp [renderOps]
    rw [hr]
    have hsp := opChar_not_space op
    have hdg := opChar_not_digit op
    simp only [evalLoop, hsp, hdg, Bool.false_eq_true, if_false]
    cases hpw : popWhile ap op.toChar values ops with
    | error e => simp only [hpw, tokRun]
    | ok vo =>
      obtain ⟨v2, o2⟩ := vo
      simp only [hpw]
      rw [evalLoop_number ap n (renderOps tl) (renderOps_headNotDigit tl) v2 (op.toChar :: o2),
        ih]
      simp [tokRun, hpw]

theorem evaluateWith_renderExpr (ap : ApplyOp) (hplus : ∀ x : Int, ap 0 x '+' = .ok x)
    (e : ArithExpr) :
    evaluateWith ap (renderExpr e) = specStep ap 0 '+' (e.first : Int) e.rest := by
  have h1 : evalLoop ap (renderExpr e) [] [] = tokRun ap e.rest [(e.first : Int)] [] := by
    unfold renderExpr
    rw [evalLoop_number ap e.first (renderOps e.rest) (renderOps_headNotDigit _) [] []]
    exact evalLoop_renderOps ap e.rest _ _
  rw [← (state_sim ap hplus e.rest).1 (e.first : Int)]
  unfold evaluateWith tokFinish
  rw [h1]
  cases htr : tokRun ap e.rest [(e.first : Int)] [] with
  | error e2 => rfl
  | ok vo =>
    obtain ⟨v2, o2⟩ := vo
    show (match drainOps ap v2 o2 with
          | Except.error e => Except.error e
          | Except.ok values2 =>
            match values2 with
            | [] => Except.error EvalErr.emptyExpression
            | v :: _ => Except.ok v) = finishState ap v2 o2
    unfold finishState
    cases hd : drainOps ap v2 o2 with
    | error e3 => rfl
    | ok l => cases l <;> rfl

theorem Server_apply_op_plus (x : Int) : Server.apply_op 0 x '+' = .ok x := by
  simp [Server.apply_op]

theorem Client_apply_op_plus (x : Int) : Client.apply_op 0 x '+' = .ok x := by
  simp [Client.apply_op]

theorem Server_evaluate_render (e : ArithExpr) : Server.evaluate (renderExpr e) = specEval e :=
  evaluateWith_renderExpr Server.apply_op Server_apply_op_plus e

theorem Client_evaluate_render (e : ArithExpr) :
    Client.evaluate (renderExpr e) = specStep Client.apply_op 0 '+' (e.first : Int) e.rest :=
  evaluateWith_renderExpr Client.apply_op Client_apply_op_plus e

theorem evaluateWith_eq_finish (ap : ApplyOp) (s : List Char) :
    evaluateWith ap s =
      (match evalLoop ap s [] [] with
       | .error e => .error e
       | .ok (v2, o2) => finishState ap v2 o2) := by
  unfold evaluateWith
  cases h : evalLoop ap s [] [] with
  | error e => rfl
  | ok vo =>
    obtain ⟨v2, o2⟩ := vo
    show (match drainOps ap v2 o2 with
          | Except.error e => Except.error e
          | Except.ok values2 =>
            match values2 with
            | [] => Except.error EvalErr.emptyExpression
            | v :: _ => Except.ok v) = finishState ap v2 o2
    unfold finishState
    cases hd : drainOps ap v2 o2 with
    | error e3 => rfl
    | ok l => cases l <;> rfl


theorem popWhile_mono (ap1 ap2 : ApplyOp)
    (hmono : ∀ (a b : Int) (o : Char) (r : Int), ap1 a b o = .ok r → ap2 a b o = .ok r)
    (c : Char) :
    ∀ (os : List Char) (vs : List Int) (out : List Int × List Char),
      popWhile ap1 c vs os = .ok out → popWhile ap2 c vs os = .ok out := by
  intro os
  induction os with
  | nil => intro vs out h; exact h
  | cons op ops ih =>
    intro vs out h
    by_cases hge : precedence op ≥ precedence c
    · unfold popWhile at h ⊢
      rw [if_pos hge] at h ⊢
      cases vs with
      | nil => simp at h
      | cons b vs2 =>
        cases vs2 with
        | nil => simp at h
        | cons a vs3 =>
          simp only [] at h ⊢
          cases hap : ap1 a b op with
          | error e => rw [hap] at h; simp at h
          | ok r =>
            rw [hap] at h
            rw [hmono a b op r hap]
            simp only [] at h ⊢
            exact ih (r :: vs3) out h
    · unfold popWhile at h ⊢
      rw [if_neg hge] at h ⊢
      exact h

theorem drainOps_mono (ap1 ap2 : ApplyOp)
    (hmono : ∀ (a b : Int) (o : Char) (r : Int), ap1 a b o = .ok r → ap2 a b o = .ok r) :
    ∀ (os : List Char) (vs out : List Int),
      drainOps ap1 vs os = .ok out → drainOps ap2 vs os = .ok out := by
  intro os
  induction os with
  | nil => intro vs out h; exact h
  | cons op ops ih =>
    intro vs out h
    unfold drainOps at h ⊢
    cases vs with
    | nil => simp at h
    | cons b vs2 =>
      cases vs2 with
      | nil => simp at h
      | cons a vs3 =>
        simp only [] at h ⊢
        cases hap : ap1 a b op with
        | error e => rw [hap] at h; simp at h
        | ok r =>
          rw [hap] at h
          rw [hmono a b op r hap]
          simp only [] at h ⊢
          exact ih (r :: vs3) out h

theorem evalLoop_mono_aux (ap1 ap2 : ApplyOp)
    (hmono : ∀ (a b : Int) (o : Char) (r : Int), ap1 a b o = .ok r → ap2 a b o = .ok r) :
    ∀ (len : Nat) (l : List Char), l.length ≤ len →
      ∀ (vs : List Int) (os : List Char) (out : List Int × List Char),
        evalLoop ap1 l vs os = .ok out → evalLoop ap2 l vs os = .ok out := by
  intro len
  induction len with
  | zero =>
    intro l hlen vs os out h
    cases l with
    | nil => simp only [evalLoop] at h ⊢; exact h
    | cons c rest => simp at hlen
  | succ n ihn =>
    intro l hlen vs os out h
    cases l with
    | nil => simp only [evalLoop] at h ⊢; exact h
    | cons c rest =>
      simp only [List.length_cons] at hlen
      by_cases hsp : isSpaceB c
      · simp only [evalLoop, hsp, if_true] at h ⊢
        exact ihn rest (by omega) vs os out h
      · by_cases hdg : isDigitB c
        · simp only [evalLoop, hsp, hdg, Bool.false_eq_true, if_false, if_true] at h ⊢
          have hlen2 := readNum_len_le rest (0 * 10 + digitVal c)
          exact ihn _ (by omega) _ os out h
        · simp only [evalLoop, hsp, hdg, Bool.false_eq_true, if_false] at h ⊢
          cases hpw : popWhile ap1 c vs os with
          | error e => rw [hpw] at h; simp at h
          | ok vo =>
            obtain ⟨v2, o2⟩ := vo
            rw [hpw] at h
            rw [popWhile_mono ap1 ap2 hmono c os vs (v2, o2) hpw]
            simp only [] at h ⊢
            exact ihn rest (by omega) v2 (c :: o2) out h

theorem evalLoop_mono (ap1 ap2 : ApplyOp)
    (hmono : ∀ (a b : Int) (o : Char) (r : Int), ap1 a b o = .ok r → ap2 a b o = .ok r)
    (l : List Char) (vs : List Int) (os : List Char) (out : List Int × List Char)
    (h : evalLoop ap1 l vs os = .ok out) : evalLoop ap2 l vs os = .ok out :=
  evalLoop_mono_aux ap1 ap2 hmono l.length l (le_refl _) vs os out h

theorem finishState_mono (ap1 ap2 : ApplyOp)
    (hmono : ∀ (a b : Int) (o : Char) (r : Int), ap1 a b o = .ok r → ap2 a b o = .ok r)
    (vs : List Int) (os : List Char) (v : Int)
    (h : finishState ap1 vs os = .ok v) : finishState ap2 vs os = .ok v := by
  unfold finishState at h ⊢
  cases hd : drainOps ap1 vs os with
  | error e => rw [hd] at h; simp at h
  | ok l =>
    rw [hd] at h
    rw [drainOps_mono ap1 ap2 hmono os vs l hd]
    cases l with
    | nil => simp at h
    | cons v2 t => exact h

theorem evaluateWith_mono (ap1 ap2 : ApplyOp)
    (hmono : ∀ (a b : Int) (o : Char) (r : Int), ap1 a b o = .ok r → ap2 a b o = .ok r)
    (s : List Char) (v : Int)
    (h : evaluateWith ap1 s = .ok v) : evaluateWith ap2 s = .ok v := by
  rw [evaluateWith_eq_finish] at h ⊢
  cases h1 : evalLoop ap1 s [] [] with
  | error e => rw [h1] at h; simp at h
  | ok vo =>
    obtain ⟨vs, os⟩ := vo
    rw [h1] at h
    rw [evalLoop_mono ap1 ap2 hmono s [] [] (vs, os) h1]
    simp only [] at h ⊢
    exact finishState_mono ap1 ap2 hmono vs os v h

theorem popWhile_err (ap : ApplyOp) (c : Char) :
    ∀ (os : List Char) (vs : List Int) (e : EvalErr),
      popWhile ap c vs os = .error e →
      e = .stackUnderflow ∨ ∃ a b o, ap a b o = .error e := by
  intro os
  induction os with
  | nil => intro vs e h; simp [popWhile] at h
  | cons op ops ih =>
    intro vs e h
    by_cases hge : precedence op ≥ precedence c
    · unfold popWhile at h
      rw [if_pos hge] at h
      cases vs with
      | nil =>
        simp only [] at h
        injection h with h2
        exact Or.inl h2.symm
      | cons b vs2 =>
        cases vs2 with
        | nil =>
          simp only [] at h
          injection h with h2
          exact Or.inl h2.symm
        | cons a vs3 =>
          simp only [] at h
          cases hap : ap a b op with
          | error e2 =>
            rw [hap] at h
            simp only [] at h
            injection h with h2
            exact Or.inr ⟨a, b, op, by rw [hap, h2]⟩
          | ok r =>
            rw [hap] at h
            simp only [] at h
            exact ih (r :: vs3) e h
    · unfold popWhile at h
      rw [if_neg hge] at h
      simp at h

theorem drainOps_err (ap : ApplyOp) :
    ∀ (os : List Char) (vs : List Int) (e : EvalErr),
      drainOps ap vs os = .error e →
      e = .stackUnderflow ∨ ∃ a b o, ap a b o = .error e := by
  intro os
  induction os with
  | nil => intro vs e h; simp [drainOps] at h
  | cons op ops ih =>
    intro vs e h
    unfold drainOps at h
    cases vs with
    | nil =>
      simp only [] at h
      injection h with h2
      exact Or.inl h2.symm
    | cons b vs2 =>
      cases vs2 with
      | nil =>
        simp only [] at h
        injection h with h2
        exact Or.inl h2.symm
      | cons a vs3 =>
        simp only [] at h
        cases hap : ap a b op with
        | error e2 =>
          rw [hap] at h
          simp only [] at h
          injection h with h2
          exact Or.inr ⟨a, b, op, by rw [hap, h2]⟩
        | ok r =>
          rw [hap] at h
          simp only [] at h
          exact ih (r :: vs3) e h

theorem evalLoop_err_aux (ap : ApplyOp) :
    ∀ (len : Nat) (l : List Char), l.length ≤ len →
      ∀ (vs : List Int) (os : List Char) (e : EvalErr),
        evalLoop ap l vs os = .error e →
        e = .stackUnderflow ∨ ∃ a b o, ap a b o = .error e := by
  intro len
  induction len with
  | zero =>
    intro l hlen vs os e h
    cases l with
    | nil => simp [evalLoop] at h
    | cons c rest => simp at hlen
  | succ n ihn =>
    intro l hlen vs os e h
    cases l with
    | nil => simp [evalLoop] at h
    | cons c rest =>
      simp only [List.length_cons] at hlen
      by_cases hsp : isSpaceB c
      · simp only [evalLoop, hsp, if_true] at h
        exact ihn rest (by omega) vs os e h
      · by_cases hdg : isDigitB c
        · simp only [evalLoop, hsp, hdg, Bool.false_eq_true, if_false, if_true] at h
          have hlen2 := readNum_len_le rest (0 * 10 + digitVal c)
          exact ihn _ (by omega) _ os e h
        · simp only [evalLoop, hsp, hdg, Bool.false_eq_true, if_false] at h
          cases hpw : popWhile ap c vs os with
          | error e2 =>
            rw [hpw] at h
            simp only [] at h
            injection h with h2
            exact h2 ▸ popWhile_err ap c os vs e2 hpw
          | ok vo =>
            obtain ⟨v2, o2⟩ := vo
            rw [hpw] at h
            simp only [] at h
            exact ihn rest (by omega) v2 (c :: o2) e h

theorem evaluateWith_err (ap : ApplyOp) (s : List Char) (e : EvalErr)
    (h : evaluateWith ap s = .error e) :
    e = .stackUnderflow ∨ e = .emptyExpression ∨ ∃ a b o, ap a b o = .error e := by
  rw [evaluateWith_eq_finish] at h
  cases h1 : evalLoop ap s [] [] with
  | error e2 =>
    rw [h1] at h
    simp only [] at h
    injection h with h2
    rcases h2 ▸ evalLoop_err_aux ap s.length s (le_refl _) [] [] e2 h1 with h3 | h3
    · exact Or.inl h3
    · exact Or.inr (Or.inr h3)
  | ok vo =>
    obtain ⟨vs, os⟩ := vo
    rw [h1] at h
    simp only [] at h
    unfold finishState at h
    cases hd : drainOps ap vs os with
    | error e2 =>
      rw [hd] at h
      simp only [] at h
      injection h with h2
      rcases h2 ▸ drainOps_err ap os vs e2 hd with h3 | h3
      · exact Or.inl h3
      · exact Or.inr (Or.inr h3)
    | ok l =>
      rw [hd] at h
      cases l with
      | nil =>
        simp only [] at h
        injection h with h2
        exact Or.inr (Or.inl h2.symm)
      | cons v t => exact absurd h (by simp)

theorem Client_apply_op_no_div0 (a b : Int) (o : Char) :
    Client.apply_op a b o ≠ .error .divisionByZero := by
  unfold Client.apply_op
  split_ifs <;> simp

theorem Client_evaluate_no_div0 (s : List Char) :
    Client.evaluate s ≠ .error .divisionByZero := by
  intro h
  rcases evaluateWith_err Client.apply_op s _ h with h1 | h1 | ⟨a, b, o, h3⟩
  · exact absurd h1 (by decide)
  · exact absurd h1 (by decide)
  · exact Client_apply_op_no_div0 a b o h3

theorem natToDigits_small (n : Nat) (h : n < 10) : natToDigits n = [Nat.digitChar n] := by
  rw [natToDigits.eq_def, if_pos h]

theorem natToDigits_step (n : Nat) (h : ¬ n < 10) :
    natToDigits n = natToDigits (n / 10) ++ [Nat.digitChar (n % 10)] := by
  rw [natToDigits.eq_def, if_neg h]

/-- Claim C3: for every parenthesis-free expression of non-negative decimal
integers joined by operators from `{+,-,*,/}`, the server's `evaluate` of its
text returns exactly the left-to-right value with `*` and `/` binding tighter
than `+` and `-` and division truncating toward zero (`specEval`, the spec's
running-term accumulation, failing where a zero divisor is reached); in
particular `evaluate "2+3*4" = 14`, `evaluate "10-2*3+4" = 8`, and
`evaluate "8/3" = 2`. -/
theorem c3_evaluator_correctness :
    (∀ e : ArithExpr, Server.evaluate (renderExpr e) = specEval e) ∧
    Server.evaluate (String.toList "2+3*4") = .ok 14 ∧
    Server.evaluate (String.toList "10-2*3+4") = .ok 8 ∧
    Server.evaluate (String.toList "8/3") = .ok 2 := by
  refine ⟨Server_evaluate_render, ?_, ?_, ?_⟩
  · have hs : String.toList "2+3*4" = renderExpr ⟨2, [(Op.add, 3), (Op.mul, 4)]⟩ := by
      simp [renderExpr, renderOps, natToDigits_small, natToDigits_step, Nat.digitChar, Op.toChar]
    rw [hs, Server_evaluate_render]
    decide
  · have hs : String.toList "10-2*3+4" =
        renderExpr ⟨10, [(Op.sub, 2), (Op.mul, 3), (Op.add, 4)]⟩ := by
      simp [renderExpr, renderOps, natToDigits_small, natToDigits_step, Nat.digitChar, Op.toChar]
    rw [hs, Server_evaluate_render]
    decide
  · have hs : String.toList "8/3" = renderExpr ⟨8, [(Op.div, 3)]⟩ := by
      simp [renderExpr, renderOps, natToDigits_small, natToDigits_step, Nat.digitChar, Op.toChar]
    rw [hs, Server_evaluate_render]
    decide

/-- Claim C4: whenever the server's `evaluate` fails with the division-by-zero
failure, the server session driver's reply for that expression is the frame
`"ERR "`; the client's local `evaluate` of the same expression never yields a
division-by-zero failure (its `apply_op` turns every zero divisor into `0`). -/
theorem c4_div_by_zero_divergence (s : List Char)
    (h : Server.evaluate s = .error .divisionByZero) :
    serverReply s = some (String.toList "ERR ") ∧
    Client.evaluate s ≠ .error .divisionByZero := by
  constructor
  · unfold serverReply
    rw [h]
  · exact Client_evaluate_no_div0 s

theorem c4_div_by_zero_divergence_witness :
    Server.evaluate (String.toList "5/0") = .error .divisionByZero ∧
    serverReply (String.toList "5/0") = some (String.toList "ERR ") ∧
    Client.evaluate (String.toList "5/0") = .ok 0 := by
  have hs : String.toList "5/0" = renderExpr ⟨5, [(Op.div, 0)]⟩ := by
    simp [renderExpr, renderOps, natToDigits_small, natToDigits_step, Nat.digitChar, Op.toChar]
  have hsrv : Server.evaluate (String.toList "5/0") = .error .divisionByZero := by
    rw [hs, Server_evaluate_render]
    decide
  refine ⟨hsrv, (c4_div_by_zero_divergence _ hsrv).1, ?_⟩
  rw [hs, Client_evaluate_render]
  decide

theorem server_apply_op_to_client (a b : Int) (o : Char) (r : Int)
    (h : Server.apply_op a b o = .ok r) : Client.apply_op a b o = .ok r := by
  unfold Server.apply_op at h
  unfold Client.apply_op
  split_ifs at h ⊢ <;> simp_all

/-- Claim C10: on every expression string where the server's `evaluate`
succeeds, the client's `evaluate` returns the same value; the two variants'
`apply_op` agree on every application that is not a division by zero, and on
a zero divisor the server's fails with division-by-zero while the client's
returns `0`. -/
theorem c10_variant_agreement :
    (∀ (s : List Char) (v : Int), Server.evaluate s = .ok v → Client.evaluate s = .ok v) ∧
    (∀ (a b : Int) (o : Char), (o = '/' → b ≠ 0) →
      Server.apply_op a b o = Client.apply_op a b o) ∧
    (∀ a : Int, Server.apply_op a 0 '/' = .error .divisionByZero ∧
      Client.apply_op a 0 '/' = .ok 0) := by
  refine ⟨?_, ?_, ?_⟩
  · intro s v h
    exact evaluateWith_mono Server.apply_op Client.apply_op server_apply_op_to_client s v h
  · intro a b o hbz
    unfold Server.apply_op Client.apply_op
    by_cases h1 : o = '+'
    · simp [h1]
    · by_cases h2 : o = '-'
      · simp [h1, h2]
      · by_cases h3 : o = '*'
        · simp [h1, h2, h3]
        · by_cases h4 : o = '/'
          · have hb : b ≠ 0 := hbz h4
            simp [h1, h2, h3, h4, hb]
          · simp [h1, h2, h3, h4]
  · intro a
    constructor
    · unfold Server.apply_op
      rw [if_neg (by decide), if_neg (by decide), if_neg (by decide), if_pos rfl, if_pos rfl]
    · unfold Client.apply_op
      rw [if_neg (by decide), if_neg (by decide), if_neg (by decide), if_pos rfl, if_pos rfl]

theorem c10_variant_agreement_witness :
    (Server.evaluate (String.toList "8/3") = .ok 2 → Client.evaluate (String.toList "8/3") = .ok 2) ∧
    Client.evaluate (String.toList "8/3") = .ok 2 ∧
    ((('*' : Char) = '/' → (3 : Int) ≠ 0) → Server.apply_op 2 3 '*' = Client.apply_op 2 3 '*') ∧
    Server.apply_op 7 0 '/' = .error .divisionByZero ∧
    Client.apply_op 7 0 '/' = .ok 0 := by
  have hs : String.toList "8/3" = renderExpr ⟨8, [(Op.div, 3)]⟩ := by
    simp [renderExpr, renderOps, natToDigits_small, natToDigits_step, Nat.digitChar, Op.toChar]
  have hsrv : Server.evaluate (String.toList "8/3") = .ok 2 := by
    rw [hs, Server_evaluate_render]
    decide
  exact ⟨c10_variant_agreement.1 (String.toList "8/3") 2,
    c10_variant_agreement.1 (String.toList "8/3") 2 hsrv,
    c10_variant_agreement.2.1 2 3 '*',
    (c10_variant_agreement.2.2 7).1,
    (c10_variant_agreement.2.2 7).2⟩

/-- Claim C8 is the documented intent, but the code breaks it: the empty
expression does throw and is recovered into an `"ERR "` reply, yet a
malformed input such as `"+"` drives the final operator drain to pop an empty
value stack — `std::stack::top`/`pop` on an empty stack, undefined behaviour,
not a thrown exception — so the `catch (...)`/`"ERR "` path is not reached
and no reply is defined. -/
theorem c8_malformed_underflow :
    Server.evaluate (String.toList "") = .error .emptyExpression ∧
    serverReply (String.toList "") = some (String.toList "ERR ") ∧
    Server.evaluate (String.toList "+") = .error .stackUnderflow ∧
    serverReply (String.toList "+") = none := by
  have h1 : Server.evaluate (String.toList "") = .error .emptyExpression := by
    simp [Server.evaluate, evaluateWith, evalLoop, drainOps]
  have h2 : Server.evaluate (String.toList "+") = .error .stackUnderflow := by
    simp [Server.evaluate, evaluateWith, evalLoop, popWhile, drainOps, isSpaceB, isDigitB]
  exact ⟨h1, by unfold serverReply; rw [h1], h2, by unfold serverReply; rw [h2]⟩

/-- Claim C7: on a complete reply frame whose payload parses as a decimal
integer, the client compares the parsed value with the recorded expectation,
reports a match exactly when they are equal and a mismatch otherwise (no
crash), and in either case closes and erases the connection in that same
step. -/
theorem c7_client_validation (c : ClientConn) (payload r : List Char) (v : Int)
    (hbuf : c.in_buf = payload ++ ' ' :: r) (hp : ∀ ch ∈ payload, ch ≠ ' ')
    (hv : stol payload = some v) :
    handleReply c = (if v = c.expected then .reportMatch else .reportMismatch, true) := by
  unfold handleReply
  rw [hbuf, findSep_append_sep payload r hp]
  simp only []
  rw [List.take_left, hv]

theorem c7_client_validation_witness :
    handleReply ⟨String.toList "4+6*2", [], 0, 0, String.toList "17 ", 16⟩ =
      (.reportMismatch, true) := by
  have h := c7_client_validation ⟨String.toList "4+6*2", [], 0, 0, String.toList "17 ", 16⟩
    (String.toList "17") [] 17 (by decide) (by decide) (by decide)
  simpa using h

/-- Claim C9: a complete reply frame whose payload `std::stol` cannot parse
(no leading digit run after optional whitespace and sign, notably the literal
`"ERR"` token) makes the client's parse fail, and nothing recovers the
failure: the reported outcome is the distinct unrecovered `parseFailure`, and
the close/erase path is never reached. -/
theorem c9_unparsable_reply (c : ClientConn) (payload r : List Char)
    (hbuf : c.in_buf = payload ++ ' ' :: r) (hp : ∀ ch ∈ payload, ch ≠ ' ')
    (hn : stol payload = none) :
    handleReply c = (.parseFailure, false) := by
  unfold handleReply
  rw [hbuf, findSep_append_sep payload r hp]
  simp only []
  rw [List.take_left, hn]

theorem c9_unparsable_reply_witness :
    stol (String.toList "ERR") = none ∧
    handleReply ⟨String.toList "5/0", [], 0, 0, String.toList "ERR ", 0⟩ =
      (.parseFailure, false) :=
  ⟨by decide,
   c9_unparsable_reply ⟨String.toList "5/0", [], 0, 0, String.toList "ERR ", 0⟩
     (String.toList "ERR") [] (by decide) (by decide) (by decide)⟩

/-- Claim C5 as stated is false on the client's receive path: after a recv
drain that hits end-of-stream (`recvd []`, the zero return) or a fatal error,
the client merely breaks out of the loop; with no complete frame in the
buffer the connection is neither closed nor removed (`false`), and the step
ends with `keepWaiting`. -/
theorem c5_client_recv_no_close_counterexample :
    clientReadStep ⟨String.toList "1", [String.toList "1 "], 1, 0, [], 1⟩ [.recvd []] =
      some (.keepWaiting, false) ∧
    clientReadStep ⟨String.toList "1", [String.toList "1 "], 1, 0, [], 1⟩ [.fatalError] =
      some (.keepWaiting, false) := by
  decide

/-- Claim C5, amended: end-of-stream or a fatal error on the server's read
path, a fatal error on the server's write path, and a fatal error on the
client's send path each close and remove the connection in that same step,
never retrying (later results are never consumed).  On the client's receive
path, end-of-stream and fatal errors do *not* close the connection: the drain
merely stops with the buffer as accumulated, the connection staying in the
table (it is removed only when a complete reply is validated). -/
theorem c5_fatal_transport_amended :
    (∀ (buf : List Char) (rest : List ReadResult),
      readLoop buf (.recvd [] :: rest) = some .closedRemoved) ∧
    (∀ (buf : List Char) (rest : List ReadResult),
      readLoop buf (.fatalError :: rest) = some .closedRemoved) ∧
    (∀ (out : List Char) (rest : List WriteResult), out ≠ [] →
      serverWriteLoop out (.fatalError :: rest) = some .dead) ∧
    (∀ (frags : List (List Char)) (idx off : Nat) (rest : List SendResult),
      idx < frags.length → clientSendLoop frags idx off (.fatalError :: rest) = some .dead) ∧
    (∀ (buf : List Char) (rest : List ReadResult),
      clientRecvLoop buf (.recvd [] :: rest) = some buf) ∧
    (∀ (buf : List Char) (rest : List ReadResult),
      clientRecvLoop buf (.fatalError :: rest) = some buf) := by
  refine ⟨?_, ?_, ?_, ?_, ?_, ?_⟩
  · intro buf rest
    simp [readLoop]
  · intro buf rest
    simp [readLoop]
  · intro out rest hne
    cases out with
    | nil => exact absurd rfl hne
    | cons c cs => simp [serverWriteLoop]
  · intro frags idx off rest hlt
    unfold clientSendLoop
    rw [if_pos hlt]
  · intro buf rest
    simp [clientRecvLoop]
  · intro buf rest
    simp [clientRecvLoop]

theorem c5_fatal_transport_amended_witness :
    readLoop [] [.recvd []] = some .closedRemoved ∧
    readLoop ['1'] [.fatalError] = some .closedRemoved ∧
    serverWriteLoop ['1'] [.fatalError] = some .dead ∧
    clientSendLoop [['a']] 0 0 [.fatalError] = some .dead ∧
    clientRecvLoop ['x'] [.recvd []] = some ['x'] ∧
    clientRecvLoop ['x'] [.fatalError] = some ['x'] :=
  ⟨c5_fatal_transport_amended.1 [] [],
   c5_fatal_transport_amended.2.1 ['1'] [],
   c5_fatal_transport_amended.2.2.1 ['1'] [] (by decide),
   c5_fatal_transport_amended.2.2.2.1 [['a']] 0 0 [] (by decide),
   c5_fatal_transport_amended.2.2.2.2.1 ['x'] [],
   c5_fatal_transport_amended.2.2.2.2.2 ['x'] []⟩

theorem clientSendLoop_cursor (frags : List (List Char)) :
    ∀ (results : List SendResult) (idx off i o : Nat),
      ValidSends frags idx off results → CursorOk frags idx off →
      clientSendLoop frags idx off results = some (.alive i o) → CursorOk frags i o := by
  intro results
  induction results with
  | nil =>
    intro idx off i o _ hc h
    unfold clientSendLoop at h
    by_cases hi : idx < frags.length
    · rw [if_pos hi] at h
      simp at h
    · rw [if_neg hi] at h
      simp at h
      obtain ⟨rfl, rfl⟩ := h
      exact hc
  | cons r rest ih =>
    intro idx off i o hv hc h
    unfold clientSendLoop at h
    by_cases hi : idx < frags.length
    · rw [if_pos hi] at h
      cases r with
      | sent k =>
        simp only [ValidSends] at hv
        obtain ⟨hk, hv2⟩ := hv
        simp only [] at h
        by_cases h0 : 0 < k
        · rw [if_pos h0] at h
          by_cases heq : off + k = (frags.getD idx []).length
          · rw [if_pos heq] at h hv2
            exact ih (idx + 1) 0 i o hv2 ⟨by omega, Nat.zero_le _⟩ h
          · rw [if_neg heq] at h hv2
            refine ih idx (off + k) i o hv2 ⟨hc.1, ?_⟩ h
            have := hc.2
            omega
        · rw [if_neg h0] at h
          simp at h
      | wouldBlock =>
        simp only [] at h
        simp at h
        obtain ⟨rfl, rfl⟩ := h
        exact hc
      | fatalError =>
        simp only [] at h
        simp at h
    · rw [if_neg hi] at h
      simp at h
      obtain ⟨rfl, rfl⟩ := h
      exact hc

theorem serverHandleMsgs_keeps_readWrite :
    ∀ (msgs : List (List Char)) (out : List Char) (res : List Char × Interest),
      serverHandleMsgs msgs out .readWrite = some res → res.2 = .readWrite := by
  intro msgs
  induction msgs with
  | nil =>
    intro out res h
    simp only [serverHandleMsgs] at h
    simp at h
    rw [← h]
  | cons m rest ih =>
    intro out res h
    simp only [serverHandleMsgs] at h
    cases hrep : serverReply m with
    | none => rw [hrep] at h; simp at h
    | some rep =>
      rw [hrep] at h
      simp only [] at h
      exact ih (out ++ rep) res h

/-- Claim C6, amended: (1) under the transport's send contract the client's
outbound cursor never points past the end of the queued fragments; (2) once
the cursor reaches the fragment count, writability interest is dropped, but
the fragment list is retained, not cleared — only the cursor marks
completion; (3) on the server, when the write drain leaves `out_buf` empty,
writability interest is dropped; (4) processing at least one extracted
message (queuing its reply frame) always leaves the connection registered for
writability, re-enabling it on a read-only registration. -/
theorem c6_cursor_backpressure_amended :
    (∀ (frags : List (List Char)) (results : List SendResult) (idx off i o : Nat),
      ValidSends frags idx off results → CursorOk frags idx off →
      clientSendLoop frags idx off results = some (.alive i o) → CursorOk frags i o) ∧
    (∀ (st : ClientSendState) (int_ : Interest) (results : List SendResult)
        (st2 : ClientSendState) (int2 : Interest),
      st.frag_idx < st.fragments.length →
      clientWritableStep st int_ results = some (.alive st2 int2) →
      st2.frag_idx = st.fragments.length →
      int2 = .readOnly ∧ st2.fragments = st.fragments) ∧
    (∀ (out : List Char) (int_ : Interest) (results : List WriteResult) (out2 : List Char)
        (int2 : Interest),
      serverWritableStep out int_ results = some (.alive out2 int2) → out2 = [] →
      int2 = .readOnly) ∧
    (∀ (msgs : List (List Char)) (out : List Char) (int_ : Interest)
        (res : List Char × Interest),
      msgs ≠ [] → serverHandleMsgs msgs out int_ = some res → res.2 = .readWrite) := by
  refine ⟨?_, ?_, ?_, ?_⟩
  · intro frags results idx off i o hv hc h
    exact clientSendLoop_cursor frags results idx off i o hv hc h
  · intro st int_ results st2 int2 hlt hstep heq
    unfold clientWritableStep at hstep
    rw [if_pos hlt] at hstep
    cases hloop : clientSendLoop st.fragments st.frag_idx st.frag_offset results with
    | none => rw [hloop] at hstep; simp at hstep
    | some out =>
      cases out with
      | dead => rw [hloop] at hstep; simp at hstep
      | alive i o =>
        rw [hloop] at hstep
        simp only [] at hstep
        by_cases hieq : i = st.fragments.length
        · rw [if_pos hieq] at hstep
          simp at hstep
          obtain ⟨h1, h2⟩ := hstep
          constructor
          · rw [← h2]
          · rw [← h1]
        · rw [if_neg hieq] at hstep
          simp at hstep
          obtain ⟨h1, h2⟩ := hstep
          exfalso
          apply hieq
          rw [← heq, ← h1]
  · intro out int_ results out2 int2 hstep hout2
    unfold serverWritableStep at hstep
    cases hloop : serverWriteLoop out results with
    | none => rw [hloop] at hstep; simp at hstep
    | some w =>
      cases w with
      | dead => rw [hloop] at hstep; simp at hstep
      | alive out3 =>
        rw [hloop] at hstep
        simp only [] at hstep
        by_cases he : out3.isEmpty
        · rw [if_pos he] at hstep
          simp at hstep
          rw [← hstep.2]
        · rw [if_neg he] at hstep
          simp at hstep
          exfalso
          apply he
          rw [hstep.1, hout2]
          rfl
  · intro msgs out int_ res hne hstep
    cases msgs with
    | nil => exact absurd rfl hne
    | cons m rest =>
      simp only [serverHandleMsgs] at hstep
      cases hrep : serverReply m with
      | none => rw [hrep] at hstep; simp at hstep
      | some rep =>
        rw [hrep] at hstep
        simp only [] at hstep
        exact serverHandleMsgs_keeps_readWrite rest (out ++ rep) res hstep

/-- Claim C6 as stated is false on the client: after the send loop transmits
every queued byte of the single fragment `"a"` and the step drops writability
interest, the connection's fragment list is still the original non-empty
list — the source never clears `c.fragments`; only `frag_idx` reaching the
count marks completion. -/
theorem c6_fragments_not_cleared_counterexample :
    clientWritableStep ⟨[['a']], 0, 0⟩ .readWrite [.sent 1] =
      some (.alive ⟨[['a']], 1, 0⟩ .readOnly) ∧
    ([['a']] : List (List Char)) ≠ [] := by
  decide

theorem c6_cursor_backpressure_amended_witness :
    CursorOk [['a']] 1 0 ∧
    (Interest.readOnly = Interest.readOnly ∧ ([['a']] : List (List Char)) = [['a']]) ∧
    Interest.readOnly = Interest.readOnly ∧
    (String.toList "ERR ", Interest.readWrite).2 = Interest.readWrite := by
  have hply : serverReply ([] : List Char) = some (String.toList "ERR ") := by
    have h1 : Server.evaluate ([] : List Char) = .error .emptyExpression := by
      simp [Server.evaluate, evaluateWith, evalLoop, drainOps]
    unfold serverReply
    rw [h1]
  have hmsgs : serverHandleMsgs [([] : List Char)] [] .readOnly =
      some (String.toList "ERR ", .readWrite) := by
    simp [serverHandleMsgs, hply]
  refine ⟨?_, ?_, ?_, ?_⟩
  · exact c6_cursor_backpressure_amended.1 [['a']] [.sent 1] 0 0 1 0
      (by simp [ValidSends]) (by simp [CursorOk]) (by decide)
  · exact c6_cursor_backpressure_amended.2.1 ⟨[['a']], 0, 0⟩ .readWrite [.sent 1]
      ⟨[['a']], 1, 0⟩ .readOnly (by decide) (by decide) (by decide)
  · exact c6_cursor_backpressure_amended.2.2.1 ['a'] .readWrite [.wrote 1] [] .readOnly
      (by decide) rfl
  · exact c6_cursor_backpressure_amended.2.2.2 [([] : List Char)] [] .readOnly
      (String.toList "ERR ", .readWrite) (by simp) hmsgs
